import Mathlib

/-
Verification of the Action Extraction & Patch Application Engine of the
Only-Agent VS Code extension (src/extension.ts), as a shallow embedding.
Text is modelled as `List Char`; the collaborator side effects (file
system, terminal, external browser) are modelled as an explicit `World`
plus an observable effect trace.
-/

namespace OnlyAgent

abbrev Str := List Char

/-- Characters of a Lean string literal, used to write concrete inputs. -/
def chars (s : String) : Str := s.data

/-- ASCII whitespace, the subset of the JavaScript regex class backslash-s
relevant to this code base (space, tab, newline, carriage return, form
feed, vertical tab). -/
def isWsChar (c : Char) : Bool :=
  c = ' ' || c = '\t' || c = '\n' || c = '\r' || c = '\x0B' || c = '\x0C'

/-- A word character, the JavaScript regex class backslash-w. -/
def isWordChar (c : Char) : Bool :=
  ('a' ≤ c && c ≤ 'z') || ('A' ≤ c && c ≤ 'Z') || ('0' ≤ c && c ≤ '9') || c = '_'

/-- ASCII lower-casing, modelling the `i` flag of the field regexes
(all labels involved are ASCII). -/
def asciiLower (c : Char) : Char :=
  if 'A' ≤ c && c ≤ 'Z' then Char.ofNat (c.toNat + 32) else c

/-- JavaScript `String.prototype.trim`: strip whitespace from both ends. -/
def trimStr (l : Str) : Str :=
  ((l.dropWhile isWsChar).reverse.dropWhile isWsChar).reverse

/-- A line whose `trim()` is the empty string. -/
def isBlankLine (l : Str) : Bool := (trimStr l).isEmpty

/-- JavaScript `split(/\r?\n/)`: split on `\n` or `\r\n`. -/
def splitLinesRN : Str → List Str
  | [] => [[]]
  | '\r' :: '\n' :: rest =>
    [] :: splitLinesRN rest
  | '\n' :: rest =>
    [] :: splitLinesRN rest
  | c :: rest =>
    match splitLinesRN rest with
    | l :: ls => (c :: l) :: ls
    | [] => [[c]]

/-- The two `while` loops of `executeAction`'s MODIFY branch that strip
leading and trailing blank lines from the search block. -/
def trimBlankEnds (lines : List Str) : List Str :=
  ((lines.dropWhile isBlankLine).reverse.dropWhile isBlankLine).reverse

/-- JavaScript `String.prototype.indexOf`: index of the first occurrence
of `pat` in `text`, scanning from offset 0. -/
def indexOfAux (text pat : Str) : Option Nat :=
  if pat.isPrefixOf text then some 0
  else
    match text with
    | [] => none
    | _ :: t => (indexOfAux t pat).map (· + 1)

/-- `pat` occurs verbatim in `text` at offset `i`. -/
def occursAt (text pat : Str) (i : Nat) : Bool := pat.isPrefixOf (text.drop i)

/-- `fullText.split(/\r?\n/)` — the document line sequence. -/
def docLinesOf (fullText : Str) : List Str := splitLinesRN fullText

/-- `effectiveSearchLines` — the before block split into lines with blank
lines stripped from both ends. -/
def effectiveSearchLines (before : Str) : List Str :=
  trimBlankEnds (splitLinesRN before)

/-- The inner loop of the fuzzy scan: lines `i+j` of the document equal
the effective search lines after trimming both sides independently. -/
def linesMatchAt (docLines eff : List Str) (i : Nat) : Bool :=
  (List.range eff.length).all fun j =>
    decide (trimStr (docLines.getD (i + j) []) = trimStr (eff.getD j []))

/-- The outer loop of the fuzzy scan: try `count` candidate start lines
beginning at `i`, returning the first match (`break` on success). -/
def findFirstMatch (docLines eff : List Str) : Nat → Nat → Option Nat
  | 0, _ => none
  | count + 1, i =>
    if linesMatchAt docLines eff i then some i
    else findFirstMatch docLines eff count (i + 1)

/-- The fuzzy scan `for (let i = 0; i <= docLines.length - eff.length; i++)`:
no iterations when the search block is longer than the document. -/
def findFuzzy (docLines eff : List Str) : Option Nat :=
  if eff.length ≤ docLines.length then
    findFirstMatch docLines eff (docLines.length - eff.length + 1) 0
  else none

/-- Result of the MODIFY locate step. -/
inductive LocateResult where
  | exact (offset : Nat) (len : Nat)
  | fuzzy (lineIdx : Nat) (numLines : Nat)
  | emptyPatchBlock
  | notFound
deriving DecidableEq, Repr

/-- The two-stage matcher of `executeAction`'s MODIFY branch: exact
`indexOf` first, then trimmed line-by-line scan. -/
def locate (fullText before : Str) : LocateResult :=
  match indexOfAux fullText before with
  | some offset => .exact offset before.length
  | none =>
    if (effectiveSearchLines before).length = 0 then .emptyPatchBlock
    else
      match findFuzzy (docLinesOf fullText) (effectiveSearchLines before) with
      | some i => .fuzzy i (effectiveSearchLines before).length
      | none => .notFound

/-- The fuzzy-branch edit: replace whole lines `i` through `i + n - 1`
with `content` verbatim. Documents are modelled with LF separators. -/
def fuzzyReplace (fullText content : Str) (i n : Nat) : Str :=
  List.intercalate ['\n']
    ((docLinesOf fullText).take i ++ content :: (docLinesOf fullText).drop (i + n))

/-- Strip an exact literal from the front of `cs`, returning the rest. -/
def stripLit : Str → Str → Option Str
  | cs, [] => some cs
  | [], _ :: _ => none
  | c :: cs, l :: ls => if c = l then stripLit cs ls else none

/-- Strip a literal from the front of `cs`, comparing ASCII
case-insensitively (the `i` flag of the field regexes). -/
def stripCI : Str → Str → Option Str
  | cs, [] => some cs
  | [], _ :: _ => none
  | c :: cs, l :: ls => if asciiLower c = asciiLower l then stripCI cs ls else none

/-- Match the optionally emphasised label at the head of `cs`:
the regex piece `(?:\*\*)?LABEL:` with case-insensitive label. -/
def stripLabel (cs label : Str) : Option Str :=
  match stripLit cs (chars "**") with
  | some r =>
    match stripCI r (label ++ [':']) with
    | some r2 => some r2
    | none => stripCI cs (label ++ [':'])
  | none => stripCI cs (label ++ [':'])

/-- After the label, the regex piece `(?:\*\*)?`: drop a trailing `**`
when present. -/
def dropLabelEmph (cs label : Str) : Option Str :=
  (stripLabel cs label).map fun r =>
    match stripLit r (chars "**") with
    | some r2 => r2
    | none => r

/-- Leftmost position where the (optionally emphasised) label matches,
returning the text that follows it. -/
def findLabel : Str → Str → Option Str
  | [], _ => none
  | c :: t, label =>
    match dropLabelEmph (c :: t) label with
    | some r => some r
    | none => findLabel t label

/-- `getField` of `parseAndConfirmActions`: after the label, greedy `\s*`
(which crosses newlines), then capture `(.*)` (a dot excludes `\n` and
`\r`), then `trim()`. -/
def getField (body label : Str) : Option Str :=
  (findLabel body label).map fun r =>
    trimStr ((r.dropWhile isWsChar).takeWhile fun c => !(c = '\n' || c = '\r'))

/-- Offset of the closing fence: the least position where the lazy capture
can stop, i.e. where `\n?```` matches. -/
def findCloser : Str → Option Nat
  | [] => none
  | c :: t =>
    if (chars "\n```").isPrefixOf (c :: t) || (chars "```").isPrefixOf (c :: t) then some 0
    else (findCloser t).map (· + 1)

/-- Given the text right after an opening ` ``` `: discard the language tag
(`[\w]*`), an optional newline, and capture lazily up to the closing
fence. Fails when no closing fence follows. -/
def tryFence (s : Str) : Option Str :=
  let afterTag := s.dropWhile isWordChar
  let afterNl :=
    match afterTag with
    | '\n' :: r => r
    | _ => afterTag
  (findCloser afterNl).map fun e => afterNl.take e

/-- Scan for the first opening fence whose capture succeeds, advancing one
character at a time as the lazy `[\s\S]*?` does. -/
def findFenceScan : Str → Option Str
  | [] => none
  | c :: t =>
    if (chars "```").isPrefixOf (c :: t) then
      match tryFence ((c :: t).drop 3) with
      | some cap => some cap
      | none => findFenceScan t
    else findFenceScan t

/-- `getCodeBlock` of `parseAndConfirmActions`: first (optionally
emphasised) label, then the first well-formed fenced block anywhere
after it. -/
def getCodeBlock (body label : Str) : Option Str :=
  match findLabel body label with
  | some r => findFenceScan r
  | none => none

/-- Match the block marker `\x7b\x7b\s*TOOL_CALL:\s*(\w+)\s*\x7d\x7d` at
the head of `cs` (case-sensitive: the marker regex has no `i` flag),
returning the kind token and the rest of the text. -/
def matchMarkerAt (cs : Str) : Option (Str × Str) :=
  match stripLit cs (chars "\x7b\x7b") with
  | none => none
  | some r1 =>
    match stripLit (r1.dropWhile isWsChar) (chars "TOOL_CALL:") with
    | none => none
    | some r3 =>
      let r4 := r3.dropWhile isWsChar
      let kind := r4.takeWhile isWordChar
      if kind.isEmpty then none
      else
        match stripLit ((r4.drop kind.length).dropWhile isWsChar) (chars "\x7d\x7d") with
        | none => none
        | some r6 => some (kind, r6)

/-- Scan forward for the next full block marker. -/
def findNextMarker : Str → Option (Str × Str)
  | [] => none
  | c :: t =>
    match matchMarkerAt (c :: t) with
    | some r => some r
    | none => findNextMarker t

/-- The lookahead `(?=\x7b\x7b\s*TOOL_CALL:|$)` that terminates a block
body. -/
def markerPrefixAt (cs : Str) : Bool :=
  match stripLit cs (chars "\x7b\x7b") with
  | none => false
  | some r => (chars "TOOL_CALL:").isPrefixOf (r.dropWhile isWsChar)

/-- A block body: everything up to the next marker lookahead or the end
of the text, together with the remaining text. -/
def takeBody : Str → Str × Str
  | [] => ([], [])
  | c :: t =>
    if markerPrefixAt (c :: t) then ([], c :: t)
    else
      let p := takeBody t
      (c :: p.1, p.2)

/-- One action record, mirroring the `AgentAction` interface. The random
string id of the source is modelled as a `Nat` assigned at parse time
(the spec requires only uniqueness). -/
structure AgentAction where
  id : Nat
  type : Str
  path : Option Str
  content : Option Str
  before : Option Str
  command : Option Str
  url : Option Str
deriving DecidableEq, Repr

/-- Build the action for one block: per-kind field extraction of
`parseAndConfirmActions`; an unrecognized kind extracts no fields. -/
def mkAction (id : Nat) (ty body : Str) : AgentAction :=
  if ty = chars "MODIFY" then
    ⟨id, ty, getField body (chars "FILE"), getCodeBlock body (chars "AFTER"),
      getCodeBlock body (chars "BEFORE"), none, none⟩
  else if ty = chars "CREATE" then
    ⟨id, ty, getField body (chars "FILE"), getCodeBlock body (chars "CONTENT"),
      none, none, none⟩
  else if ty = chars "DELETE" then
    ⟨id, ty, getField body (chars "FILE"), none, none, none, none⟩
  else if ty = chars "SHELL" then
    ⟨id, ty, none, none, none, getField body (chars "COMMAND"), none⟩
  else if ty = chars "FETCH" then
    ⟨id, ty, none, none, none, none, getField body (chars "URL")⟩
  else
    ⟨id, ty, none, none, none, none, none⟩

/-- The block scan of `parseAndConfirmActions`, fuelled: each iteration
consumes at least the marker, so `length + 1` fuel always suffices. -/
def parseLoopAux : Nat → Str → List (Str × Str)
  | 0, _ => []
  | fuel + 1, cs =>
    match findNextMarker cs with
    | none => []
    | some (kind, rest) =>
      let p := takeBody rest
      (kind, p.1) :: parseLoopAux fuel p.2

/-- All `(kind, body)` blocks of a response text, in textual order. -/
def parseBlocks (cs : Str) : List (Str × Str) :=
  parseLoopAux (cs.length + 1) cs

/-- The batch of actions queued by one `parseAndConfirmActions` call:
one action per block, kept when its kind string is truthy (non-empty —
the guard `if (action.type)` of the source). Ids are assigned
sequentially from `startId`. -/
def queuedActions (cs : Str) (startId : Nat) : List AgentAction :=
  ((parseBlocks cs).enum.map fun nb => mkAction (startId + nb.1) nb.2.1 nb.2.2).filter
    fun a => !a.type.isEmpty

/-- Observable collaborator side effects of one execution. -/
inductive Effect where
  | fileRead (p : Str)
  | fileWrite (p : Str) (text : Str)
  | fileDelete (p : Str)
  | terminalSend (cmd : Str)
  | openExternal (u : Str)
deriving DecidableEq, Repr

/-- Typed execution failures, one per `throw` site or collaborator
failure of `executeAction`. Fields hidden behind a TypeScript non-null
assertion but absent at run time are modelled as `missingField`. -/
inductive ExecError where
  | noWorkspace
  | missingField
  | fileReadError
  | ioError
  | emptyPatchBlock
  | patchNotFound
deriving DecidableEq, Repr

/-- The collaborator-owned state: a file system (association list from
path to content, first binding wins) and whether a workspace is open. -/
structure World where
  files : List (Str × Str)
  hasWorkspace : Bool
deriving DecidableEq, Repr

def lookupFile : List (Str × Str) → Str → Option Str
  | [], _ => none
  | (q, t) :: rest, p => if q = p then some t else lookupFile rest p

def setFile : List (Str × Str) → Str → Str → List (Str × Str)
  | [], p, t => [(p, t)]
  | (q, u) :: rest, p, t =>
    if q = p then (q, t) :: rest else (q, u) :: setFile rest p t

def removeFile : List (Str × Str) → Str → List (Str × Str)
  | [], _ => []
  | (q, u) :: rest, p => if q = p then rest else (q, u) :: removeFile rest p

def writeFile (w : World) (p t : Str) : World :=
  { w with files := setFile w.files p t }

def deleteFile (w : World) (p : Str) : World :=
  { w with files := removeFile w.files p }

/-- The `try` block of `executeAction` for a single action: the workspace
check, then the per-kind side effect. Returns the updated world, the
effect trace, and `some` error when the block throws. -/
def execOne (w : World) (a : AgentAction) : World × List Effect × Option ExecError :=
  if w.hasWorkspace = false then (w, [], some .noWorkspace)
  else if a.type = chars "MODIFY" then
    match a.path with
    | none => (w, [], some .missingField)
    | some p =>
      match lookupFile w.files p with
      | none => (w, [], some .fileReadError)
      | some fullText =>
        match a.before with
        | none => (w, [.fileRead p], some .missingField)
        | some b =>
          match locate fullText b with
          | .exact offset len =>
            match a.content with
            | none => (w, [.fileRead p], some .missingField)
            | some c =>
              let newText := fullText.take offset ++ c ++ fullText.drop (offset + len)
              (writeFile w p newText, [.fileRead p, .fileWrite p newText], none)
          | .fuzzy i n =>
            match a.content with
            | none => (w, [.fileRead p], some .missingField)
            | some c =>
              let newText := fuzzyReplace fullText c i n
              (writeFile w p newText, [.fileRead p, .fileWrite p newText], none)
          | .emptyPatchBlock => (w, [.fileRead p], some .emptyPatchBlock)
          | .notFound => (w, [.fileRead p], some .patchNotFound)
  else if a.type = chars "CREATE" then
    match a.path with
    | none => (w, [], some .missingField)
    | some p =>
      let c := a.content.getD []
      (writeFile w p c, [.fileWrite p c], none)
  else if a.type = chars "DELETE" then
    match a.path with
    | none => (w, [], some .missingField)
    | some p =>
      match lookupFile w.files p with
      | none => (w, [], some .ioError)
      | some _ => (deleteFile w p, [.fileDelete p], none)
  else if a.type = chars "SHELL" then
    match a.command with
    | none => (w, [], some .missingField)
    | some c => (w, [.terminalSend c], none)
  else if a.type = chars "FETCH" then
    match a.url with
    | some u => if u.isEmpty then (w, [], none) else (w, [.openExternal u], none)
    | none => (w, [], none)
  else (w, [], none)

/-- `findIndex` plus `splice(index, 1)` in one step: the first action
with the given id and the list with it removed. -/
def findRemove : List AgentAction → Nat → Option (AgentAction × List AgentAction)
  | [], _ => none
  | a :: rest, i =>
    if a.id = i then some (a, rest)
    else (findRemove rest i).map fun p => (p.1, a :: p.2)

/-- The mutable state of the view provider relevant to the core: the
pending-action queue and the collaborator world. -/
structure ProviderState where
  pendingActions : List AgentAction
  world : World
deriving DecidableEq, Repr

/-- What one `executeAction` call reported: nothing (unknown id, the
early `return`), `actionComplete`, or `actionError`. -/
inductive ExecReport where
  | noAction
  | completed (id : Nat)
  | failed (id : Nat) (e : ExecError)
deriving DecidableEq, Repr

structure ExecResult where
  state : ProviderState
  effects : List Effect
  report : ExecReport
deriving DecidableEq, Repr

/-- `executeAction(actionId)`: look the action up by id (no-op when
absent); on success the action is spliced out of the queue, on a thrown
error the queue is left as it was and the error is reported. -/
def executeAction (st : ProviderState) (actionId : Nat) : ExecResult :=
  match findRemove st.pendingActions actionId with
  | none => ⟨st, [], .noAction⟩
  | some (a, rest) =>
    match execOne st.world a with
    | (w2, effs, none) => ⟨⟨rest, w2⟩, effs, .completed a.id⟩
    | (w2, effs, some e) => ⟨⟨st.pendingActions, w2⟩, effs, .failed a.id e⟩

/-- The loop body of `handleApproveAll`: execute one id, accumulating
effects. -/
def approveStep (acc : ProviderState × List Effect) (i : Nat) : ProviderState × List Effect :=
  let r := executeAction acc.1 i
  (r.state, acc.2 ++ r.effects)

structure ApproveAllResult where
  state : ProviderState
  effects : List Effect
  skippedReport : Option Nat
  executedIds : List Nat
deriving Repr

/-- `handleApproveAll`: snapshot the queue, keep the non-SHELL actions,
execute their ids in order, and report the skipped count when it is
positive. -/
def handleApproveAll (st : ProviderState) : ApproveAllResult :=
  let safeActions := st.pendingActions.filter fun a => !decide (a.type = chars "SHELL")
  let skippedCount := st.pendingActions.length - safeActions.length
  let actionIds := safeActions.map fun a => a.id
  let stepped := actionIds.foldl approveStep (st, [])
  ⟨stepped.1, stepped.2, if skippedCount > 0 then some skippedCount else none, actionIds⟩

/-- `parseAndConfirmActions`: append the parsed batch to the queue; the
returned flag is `true` exactly when the batch-level parse error
(zero recognized actions) is reported. -/
def parseAndConfirm (st : ProviderState) (cs : Str) (startId : Nat) :
    ProviderState × Bool :=
  let currentBatch := queuedActions cs startId
  ({ st with pendingActions := st.pendingActions ++ currentBatch },
    currentBatch.isEmpty)

/-! Helper lemmas about the exact-match scan. -/

theorem occursAt_zero (text pat : Str) : occursAt text pat 0 = pat.isPrefixOf text := by
  simp [occursAt]

theorem occursAt_succ_cons (c : Char) (t pat : Str) (j : Nat) :
    occursAt (c :: t) pat (j + 1) = occursAt t pat j := by
  simp [occursAt]

theorem indexOfAux_sound (pat : Str) :
    ∀ (text : Str) (i : Nat), indexOfAux text pat = some i →
      occursAt text pat i = true ∧ ∀ j, j < i → occursAt text pat j = false := by
  intro text
  induction text with
  | nil =>
    intro i h
    unfold indexOfAux at h
    split at h
    next hc =>
      cases h
      exact ⟨by rw [occursAt_zero]; exact hc, fun j hj => absurd hj (by omega)⟩
    next => simp at h
  | cons c t ih =>
    intro i h
    unfold indexOfAux at h
    split at h
    next hc =>
      cases h
      exact ⟨by rw [occursAt_zero]; exact hc, fun j hj => absurd hj (by omega)⟩
    next hc =>
      obtain ⟨i', hi', rfl⟩ := Option.map_eq_some'.mp h
      obtain ⟨h1, h2⟩ := ih i' hi'
      refine ⟨by rw [occursAt_succ_cons]; exact h1, ?_⟩
      intro j hj
      cases j with
      | zero =>
        rw [occursAt_zero]
        exact Bool.eq_false_iff.mpr hc
      | succ j' =>
        rw [occursAt_succ_cons]
        exact h2 j' (by omega)

theorem indexOfAux_complete (pat : Str) :
    ∀ (text : Str) (k : Nat), occursAt text pat k = true →
      (indexOfAux text pat).isSome := by
  intro text
  induction text with
  | nil =>
    intro k h
    have h0 : pat.isPrefixOf [] = true := by
      unfold occursAt at h
      rwa [List.drop_nil] at h
    simp [indexOfAux, h0]
  | cons c t ih =>
    intro k h
    by_cases hp : pat.isPrefixOf (c :: t) = true
    · simp [indexOfAux, hp]
    · cases k with
      | zero =>
        rw [occursAt_zero] at h
        exact absurd h hp
      | succ k' =>
        rw [occursAt_succ_cons] at h
        have hs := ih k' h
        have hb : pat.isPrefixOf (c :: t) = false := Bool.eq_false_iff.mpr hp
        unfold indexOfAux
        rw [hb]
        simpa using hs

/-- C1: for every file text and every `before` string occurring verbatim
as a contiguous substring, the MODIFY locate step returns the range
`[offset, offset + len(before))` of the first (lowest-offset) occurrence,
scanning from offset 0, with no normalization. -/
theorem C1_exact_first_occurrence (fullText before : Str)
    (h : ∃ k, occursAt fullText before k = true) :
    ∃ i, locate fullText before = .exact i before.length ∧
      occursAt fullText before i = true ∧
      ∀ j, j < i → occursAt fullText before j = false := by
  obtain ⟨k, hk⟩ := h
  obtain ⟨i, hi⟩ := Option.isSome_iff_exists.mp (indexOfAux_complete before fullText k hk)
  obtain ⟨h1, h2⟩ := indexOfAux_sound before fullText i hi
  exact ⟨i, by simp [locate, hi], h1, h2⟩

/-- Witness for C1 at the spec example: document `"a\nb\nc\n"`, before
`"b"` gives offset 2, length 1. -/
theorem C1_exact_first_occurrence_witness :
    occursAt (chars "a\nb\nc\n") (chars "b") 2 = true ∧
    ∃ i, locate (chars "a\nb\nc\n") (chars "b") = .exact i (chars "b").length ∧
      occursAt (chars "a\nb\nc\n") (chars "b") i = true ∧
      ∀ j, j < i → occursAt (chars "a\nb\nc\n") (chars "b") j = false :=
  ⟨by decide, C1_exact_first_occurrence _ _ ⟨2, by decide⟩⟩

/-- C6: an empty-after-trim `before` block (with the exact stage failed)
yields the specific empty-search-block condition, never the generic
not-found one. -/
theorem C6_empty_patch_block (fullText before : Str)
    (h1 : indexOfAux fullText before = none)
    (h2 : effectiveSearchLines before = []) :
    locate fullText before = .emptyPatchBlock ∧
    locate fullText before ≠ .notFound := by
  have : locate fullText before = .emptyPatchBlock := by simp [locate, h1, h2]
  exact ⟨this, by simp [this]⟩

/-- Witness for C6: an all-whitespace `before` against a document that
does not contain it. -/
theorem C6_empty_patch_block_witness :
    indexOfAux (chars "abc") (chars " ") = none ∧
    effectiveSearchLines (chars " ") = [] ∧
    locate (chars "abc") (chars " ") = .emptyPatchBlock ∧
    locate (chars "abc") (chars " ") ≠ .notFound :=
  ⟨by decide, by decide,
    (C6_empty_patch_block _ _ (by decide) (by decide)).1,
    (C6_empty_patch_block _ _ (by decide) (by decide)).2⟩

/-- C7: when both matching stages fail, a MODIFY fails with the
patch-not-found error and leaves the world (in particular the file)
completely unchanged — the only effect is the read. -/
theorem C7_notfound_no_modification (w : World) (a : AgentAction) (p t b : Str)
    (hw : w.hasWorkspace = true) (hty : a.type = chars "MODIFY")
    (hp : a.path = some p) (hb : a.before = some b)
    (ht : lookupFile w.files p = some t)
    (hnf : locate t b = .notFound) :
    execOne w a = (w, [.fileRead p], some .patchNotFound) := by
  simp [execOne, hw, hty, hp, hb, ht, hnf]

/-- Witness for C7: a `before` that matches neither exactly nor fuzzily. -/
theorem C7_notfound_no_modification_witness :
    locate (chars "xyz") (chars "abc") = .notFound ∧
    execOne ⟨[(chars "f", chars "xyz")], true⟩
        ⟨1, chars "MODIFY", some (chars "f"), some (chars "q"), some (chars "abc"), none, none⟩ =
      (⟨[(chars "f", chars "xyz")], true⟩, [.fileRead (chars "f")], some .patchNotFound) :=
  ⟨by decide,
    C7_notfound_no_modification ⟨[(chars "f", chars "xyz")], true⟩
      ⟨1, chars "MODIFY", some (chars "f"), some (chars "q"), some (chars "abc"), none, none⟩
      (chars "f") (chars "xyz") (chars "abc")
      (by decide) (by decide) (by decide) (by decide) (by decide) (by decide)⟩

/-! Helper lemmas about removal by id. -/

theorem findRemove_eq_none (l : List AgentAction) (i : Nat)
    (h : ∀ a ∈ l, a.id ≠ i) : findRemove l i = none := by
  induction l with
  | nil => rfl
  | cons a rest ih =>
    have ha : ¬ a.id = i := h a (by simp)
    have hr : findRemove rest i = none := ih fun x hx => h x (by simp [hx])
    simp [findRemove, ha, hr]

/-- C10: invoking single-action execution with an id not present in the
store is a no-op: no side effect of any kind and the state is unchanged. -/
theorem C10_unknown_id_noop (st : ProviderState) (i : Nat)
    (h : ∀ a ∈ st.pendingActions, a.id ≠ i) :
    executeAction st i = ⟨st, [], .noAction⟩ := by
  simp [executeAction, findRemove_eq_none _ _ h]

/-- Witness for C10: a store holding one SHELL action, executed with a
different id. -/
theorem C10_unknown_id_noop_witness :
    (∀ a ∈ [(⟨1, chars "SHELL", none, none, none, some (chars "ls"), none⟩ : AgentAction)],
      a.id ≠ 2) ∧
    executeAction ⟨[⟨1, chars "SHELL", none, none, none, some (chars "ls"), none⟩], ⟨[], true⟩⟩ 2 =
      ⟨⟨[⟨1, chars "SHELL", none, none, none, some (chars "ls"), none⟩], ⟨[], true⟩⟩, [], .noAction⟩ :=
  ⟨by decide, C10_unknown_id_noop _ _ (by decide)⟩

/-- C9: the exact spec example parses into one CREATE action with path
`a.txt` and content `hello`. -/
theorem C9_parse_create_example :
    queuedActions
        (chars "\x7b\x7bTOOL_CALL:CREATE\x7d\x7d\nFILE: a.txt\nCONTENT:\n```\nhello\n```\n") 0 =
      [⟨0, chars "CREATE", some (chars "a.txt"), some (chars "hello"), none, none, none⟩] := by
  decide

/-- Counterexample to C3: a block with the unrecognized kind `FOO` IS
appended to the pending-action queue (the guard `if (action.type)` is
always satisfied by a nonempty kind token), so the claim that it is never
appended is false. -/
theorem C3_counterexample :
    (parseAndConfirm ⟨[], ⟨[], true⟩⟩ (chars "\x7b\x7bTOOL_CALL:FOO\x7d\x7d\nhello") 0).1.pendingActions =
      [⟨0, chars "FOO", none, none, none, none, none⟩] ∧
    (parseAndConfirm ⟨[], ⟨[], true⟩⟩ (chars "\x7b\x7bTOOL_CALL:FOO\x7d\x7d\nhello") 0).2 = false ∧
    chars "FOO" ∉
      [chars "MODIFY", chars "CREATE", chars "DELETE", chars "SHELL", chars "FETCH"] := by
  decide

/-- Counterexample to C4: a MODIFY whose `before` matches nothing fails
at execution, and the failed action is NOT removed from the pending
store — it remains queued, so failure does not end with removal. -/
theorem C4_counterexample :
    (executeAction
        ⟨[⟨3, chars "MODIFY", some (chars "g"), some (chars "c"), some (chars "nope"), none, none⟩],
          ⟨[(chars "g", chars "xyz")], true⟩⟩ 3).report = .failed 3 .patchNotFound ∧
    (executeAction
        ⟨[⟨3, chars "MODIFY", some (chars "g"), some (chars "c"), some (chars "nope"), none, none⟩],
          ⟨[(chars "g", chars "xyz")], true⟩⟩ 3).state.pendingActions =
      [⟨3, chars "MODIFY", some (chars "g"), some (chars "c"), some (chars "nope"), none, none⟩] := by
  decide

/-- C4 (amended): executing a present action always terminates with a
report; successful completion removes the action from the store, but a
failed execution reports the error and leaves the store unchanged (the
action stays queued for explicit re-approval). -/
theorem C4_amended (st : ProviderState) (i : Nat) (a : AgentAction)
    (rest : List AgentAction)
    (hfind : findRemove st.pendingActions i = some (a, rest)) :
    ((executeAction st i).report = .completed a.id →
      (executeAction st i).state.pendingActions = rest) ∧
    (∀ e, (executeAction st i).report = .failed a.id e →
      (executeAction st i).state.pendingActions = st.pendingActions) ∧
    ((executeAction st i).report = .completed a.id ∨
      ∃ e, (executeAction st i).report = .failed a.id e) := by
  unfold executeAction
  rw [hfind]
  rcases he : execOne st.world a with ⟨w2, effs, err⟩
  cases err with
  | none => simp [he]
  | some e => simp [he]

/-- Witness for C4 (amended) at a successfully executing DELETE. -/
theorem C4_amended_witness :
    findRemove [(⟨7, chars "DELETE", some (chars "d"), none, none, none, none⟩ : AgentAction)] 7 =
      some (⟨7, chars "DELETE", some (chars "d"), none, none, none, none⟩, []) ∧
    (((executeAction ⟨[⟨7, chars "DELETE", some (chars "d"), none, none, none, none⟩],
          ⟨[(chars "d", chars "x")], true⟩⟩ 7).report = .completed 7 →
      (executeAction ⟨[⟨7, chars "DELETE", some (chars "d"), none, none, none, none⟩],
          ⟨[(chars "d", chars "x")], true⟩⟩ 7).state.pendingActions = []) ∧
    (∀ e, (executeAction ⟨[⟨7, chars "DELETE", some (chars "d"), none, none, none, none⟩],
          ⟨[(chars "d", chars "x")], true⟩⟩ 7).report = .failed 7 e →
      (executeAction ⟨[⟨7, chars "DELETE", some (chars "d"), none, none, none, none⟩],
          ⟨[(chars "d", chars "x")], true⟩⟩ 7).state.pendingActions =
        [⟨7, chars "DELETE", some (chars "d"), none, none, none, none⟩]) ∧
    ((executeAction ⟨[⟨7, chars "DELETE", some (chars "d"), none, none, none, none⟩],
          ⟨[(chars "d", chars "x")], true⟩⟩ 7).report = .completed 7 ∨
      ∃ e, (executeAction ⟨[⟨7, chars "DELETE", some (chars "d"), none, none, none, none⟩],
          ⟨[(chars "d", chars "x")], true⟩⟩ 7).report = .failed 7 e)) :=
  ⟨by decide,
    C4_amended ⟨[⟨7, chars "DELETE", some (chars "d"), none, none, none, none⟩],
        ⟨[(chars "d", chars "x")], true⟩⟩ 7
      ⟨7, chars "DELETE", some (chars "d"), none, none, none, none⟩ [] (by decide)⟩

/-- C8: a parse that queues zero actions reports the batch-level
no-actions error (never a silent success); in particular a text with no
TOOL_CALL marker queues nothing and leaves the store unchanged. -/
theorem C8_zero_actions_reports_error (st : ProviderState) (cs : Str) (startId : Nat) :
    (queuedActions cs startId = [] → (parseAndConfirm st cs startId).2 = true) ∧
    (findNextMarker cs = none →
      queuedActions cs startId = [] ∧
      (parseAndConfirm st cs startId).1.pendingActions = st.pendingActions) := by
  constructor
  · intro h
    simp [parseAndConfirm, h]
  · intro h
    have hb : parseBlocks cs = [] := by
      unfold parseBlocks parseLoopAux
      rw [h]
    have hq : queuedActions cs startId = [] := by
      simp [queuedActions, hb]
    exact ⟨hq, by simp [parseAndConfirm, hq]⟩

/-- Witness for C8 at a marker-free text. -/
theorem C8_zero_actions_reports_error_witness :
    findNextMarker (chars "hello world") = none ∧
    queuedActions (chars "hello world") 0 = [] ∧
    (parseAndConfirm ⟨[], ⟨[], true⟩⟩ (chars "hello world") 0).2 = true ∧
    (parseAndConfirm ⟨[], ⟨[], true⟩⟩ (chars "hello world") 0).1.pendingActions = [] :=
  ⟨by decide,
    ((C8_zero_actions_reports_error ⟨[], ⟨[], true⟩⟩ (chars "hello world") 0).2 (by decide)).1,
    (C8_zero_actions_reports_error ⟨[], ⟨[], true⟩⟩ (chars "hello world") 0).1
      ((C8_zero_actions_reports_error ⟨[], ⟨[], true⟩⟩ (chars "hello world") 0).2 (by decide)).1,
    ((C8_zero_actions_reports_error ⟨[], ⟨[], true⟩⟩ (chars "hello world") 0).2 (by decide)).2⟩

/-! Helper lemmas about the fuzzy scan. -/

theorem findFirstMatch_sound (d e : List Str) :
    ∀ (count i k : Nat), findFirstMatch d e count i = some k →
      linesMatchAt d e k = true ∧ i ≤ k ∧ k < i + count ∧
      ∀ j, i ≤ j → j < k → linesMatchAt d e j = false := by
  intro count
  induction count with
  | zero =>
    intro i k h
    simp [findFirstMatch] at h
  | succ n ih =>
    intro i k h
    unfold findFirstMatch at h
    split at h
    next hc =>
      cases h
      exact ⟨hc, Nat.le_refl _, by omega, fun j h1 h2 => absurd h2 (by omega)⟩
    next hc =>
      obtain ⟨h1, h2, h3, h4⟩ := ih (i + 1) k h
      refine ⟨h1, by omega, by omega, ?_⟩
      intro j hij hjk
      rcases Nat.eq_or_lt_of_le hij with rfl | hlt
      · exact Bool.eq_false_iff.mpr hc
      · exact h4 j (by omega) hjk

theorem findFirstMatch_complete (d e : List Str) :
    ∀ (count i m : Nat), i ≤ m → m < i + count → linesMatchAt d e m = true →
      (findFirstMatch d e count i).isSome := by
  intro count
  induction count with
  | zero =>
    intro i m h1 h2 _
    omega
  | succ n ih =>
    intro i m h1 h2 h3
    unfold findFirstMatch
    split
    · simp
    next hc =>
      rcases Nat.eq_or_lt_of_le h1 with rfl | hlt
      · exact absurd h3 hc
      · exact ih (i + 1) m (by omega) (by omega) h3

/-- C2: when exact matching fails and the effective search block is
nonempty and some candidate line matches after trimming, the fuzzy stage
succeeds at the first (lowest) candidate start line, and the replacement
spans whole lines — lines `i` through `i + effLen − 1` are discarded and
replaced by `content` verbatim. -/
theorem C2_fuzzy_first_trimmed_match (fullText before content : Str)
    (hexact : indexOfAux fullText before = none)
    (heff : effectiveSearchLines before ≠ [])
    (hmatch : ∃ m, m + (effectiveSearchLines before).length ≤ (docLinesOf fullText).length ∧
      linesMatchAt (docLinesOf fullText) (effectiveSearchLines before) m = true) :
    ∃ i, locate fullText before = .fuzzy i (effectiveSearchLines before).length ∧
      i + (effectiveSearchLines before).length ≤ (docLinesOf fullText).length ∧
      linesMatchAt (docLinesOf fullText) (effectiveSearchLines before) i = true ∧
      (∀ j, j < i →
        linesMatchAt (docLinesOf fullText) (effectiveSearchLines before) j = false) ∧
      fuzzyReplace fullText content i (effectiveSearchLines before).length =
        List.intercalate ['\n']
          ((docLinesOf fullText).take i ++ content ::
            (docLinesOf fullText).drop (i + (effectiveSearchLines before).length)) := by
  obtain ⟨m, hm1, hm2⟩ := hmatch
  have hle : (effectiveSearchLines before).length ≤ (docLinesOf fullText).length := by omega
  have hcomp := findFirstMatch_complete (docLinesOf fullText) (effectiveSearchLines before)
    ((docLinesOf fullText).length - (effectiveSearchLines before).length + 1) 0 m
    (by omega) (by omega) hm2
  obtain ⟨i, hi⟩ := Option.isSome_iff_exists.mp hcomp
  obtain ⟨h1, _, h3, h4⟩ :=
    findFirstMatch_sound (docLinesOf fullText) (effectiveSearchLines before) _ _ _ hi
  have hfz : findFuzzy (docLinesOf fullText) (effectiveSearchLines before) = some i := by
    simp [findFuzzy, hle, hi]
  have hloc : locate fullText before = .fuzzy i (effectiveSearchLines before).length := by
    have hne : ¬ (effectiveSearchLines before).length = 0 := by
      simpa [List.length_eq_zero] using heff
    simp [locate, hexact, hne, hfz]
  exact ⟨i, hloc, by omega, h1, fun j hj => h4 j (by omega) hj, rfl⟩

/-- Witness for C2 at the spec example: the document is indented, the
search block is not, and the fuzzy stage matches both lines at line 0. -/
theorem C2_fuzzy_first_trimmed_match_witness :
    indexOfAux (chars "  def f():\n    return 1\n") (chars "def f():\nreturn 1") = none ∧
    effectiveSearchLines (chars "def f():\nreturn 1") ≠ [] ∧
    linesMatchAt (docLinesOf (chars "  def f():\n    return 1\n"))
      (effectiveSearchLines (chars "def f():\nreturn 1")) 0 = true ∧
    ∃ i, locate (chars "  def f():\n    return 1\n") (chars "def f():\nreturn 1") =
        .fuzzy i (effectiveSearchLines (chars "def f():\nreturn 1")).length ∧
      i + (effectiveSearchLines (chars "def f():\nreturn 1")).length ≤
        (docLinesOf (chars "  def f():\n    return 1\n")).length ∧
      linesMatchAt (docLinesOf (chars "  def f():\n    return 1\n"))
        (effectiveSearchLines (chars "def f():\nreturn 1")) i = true ∧
      (∀ j, j < i →
        linesMatchAt (docLinesOf (chars "  def f():\n    return 1\n"))
          (effectiveSearchLines (chars "def f():\nreturn 1")) j = false) ∧
      fuzzyReplace (chars "  def f():\n    return 1\n") (chars "X") i
          (effectiveSearchLines (chars "def f():\nreturn 1")).length =
        List.intercalate ['\n']
          ((docLinesOf (chars "  def f():\n    return 1\n")).take i ++ (chars "X") ::
            (docLinesOf (chars "  def f():\n    return 1\n")).drop
              (i + (effectiveSearchLines (chars "def f():\nreturn 1")).length)) :=
  ⟨by decide, by decide, by decide,
    C2_fuzzy_first_trimmed_match (chars "  def f():\n    return 1\n")
      (chars "def f():\nreturn 1") (chars "X")
      (by decide) (by decide) ⟨0, by decide, by decide⟩⟩

/-! Helper lemmas for bulk approval. -/

theorem findRemove_decomp (i : Nat) :
    ∀ (l : List AgentAction) (a : AgentAction) (rest : List AgentAction),
      findRemove l i = some (a, rest) →
      a.id = i ∧ ∃ l1 l2, l = l1 ++ a :: l2 ∧ rest = l1 ++ l2 := by
  intro l
  induction l with
  | nil =>
    intro a rest h
    simp [findRemove] at h
  | cons b t ih =>
    intro a rest h
    unfold findRemove at h
    split at h
    next hb =>
      cases h
      exact ⟨hb, [], t, rfl, rfl⟩
    next hb =>
      obtain ⟨⟨a', r'⟩, hsub, heq⟩ := Option.map_eq_some'.mp h
      obtain ⟨he1, he2⟩ := Prod.mk.injEq .. ▸ heq
      subst he1
      obtain ⟨hid, l1, l2, hl, hr⟩ := ih a' r' hsub
      exact ⟨hid, b :: l1, l2, by simp [hl], by simp [← he2, hr]⟩

theorem approveStep_pending (acc : ProviderState × List Effect) (i : Nat) :
    (approveStep acc i).1.pendingActions = acc.1.pendingActions ∨
    ∃ a rest, findRemove acc.1.pendingActions i = some (a, rest) ∧
      (approveStep acc i).1.pendingActions = rest := by
  cases hf : findRemove acc.1.pendingActions i with
  | none =>
    left
    simp [approveStep, executeAction, hf]
  | some p =>
    obtain ⟨a, rest⟩ := p
    rcases he : execOne acc.1.world a with ⟨w2, effs, err⟩
    cases err with
    | none =>
      right
      exact ⟨a, rest, rfl, by simp [approveStep, executeAction, hf, he]⟩
    | some e =>
      left
      simp [approveStep, executeAction, hf, he]

theorem approveStep_shell_invariant
    (orig : List AgentAction) (hnd : (orig.map fun a => a.id).Nodup)
    (acc : ProviderState × List Effect) (i : Nat)
    (hid : ∃ b, b ∈ orig ∧ b.id = i ∧ ¬ b.type = chars "SHELL")
    (hsub : acc.1.pendingActions.Sublist orig)
    (hsh : ∀ a ∈ orig, a.type = chars "SHELL" → a ∈ acc.1.pendingActions) :
    (approveStep acc i).1.pendingActions.Sublist orig ∧
    ∀ a ∈ orig, a.type = chars "SHELL" → a ∈ (approveStep acc i).1.pendingActions := by
  obtain ⟨b, hb, hbid, hbty⟩ := hid
  rcases approveStep_pending acc i with hps | ⟨a, rest, hf, hps⟩
  · rw [hps]
    exact ⟨hsub, hsh⟩
  · obtain ⟨haid, l1, l2, hl, hr⟩ := findRemove_decomp i _ a rest hf
    have hamem : a ∈ orig := hsub.subset (by rw [hl]; simp)
    have hab : a = b :=
      List.inj_on_of_nodup_map hnd hamem hb (by rw [haid, hbid])
    have hrest : rest.Sublist acc.1.pendingActions := by
      rw [hl, hr]
      exact (List.sublist_cons_self a l2).append_left l1
    have hshrest : ∀ x ∈ orig, x.type = chars "SHELL" → x ∈ rest := by
      intro x hx hxty
      have hxmem : x ∈ acc.1.pendingActions := hsh x hx hxty
      rw [hl] at hxmem
      rw [hr]
      rcases List.mem_append.mp hxmem with h1 | h2
      · exact List.mem_append.mpr (Or.inl h1)
      · rcases List.mem_cons.mp h2 with rfl | h3
        · exact absurd hxty (hab ▸ hbty)
        · exact List.mem_append.mpr (Or.inr h3)
    rw [hps]
    exact ⟨hrest.trans hsub, hshrest⟩

theorem approve_fold_shell_invariant
    (orig : List AgentAction) (hnd : (orig.map fun a => a.id).Nodup) :
    ∀ (ids : List Nat) (acc : ProviderState × List Effect),
      (∀ i ∈ ids, ∃ b, b ∈ orig ∧ b.id = i ∧ ¬ b.type = chars "SHELL") →
      acc.1.pendingActions.Sublist orig →
      (∀ a ∈ orig, a.type = chars "SHELL" → a ∈ acc.1.pendingActions) →
      ((ids.foldl approveStep acc).1.pendingActions.Sublist orig ∧
        ∀ a ∈ orig, a.type = chars "SHELL" →
          a ∈ (ids.foldl approveStep acc).1.pendingActions) := by
  intro ids
  induction ids with
  | nil =>
    intro acc _ hsub hsh
    exact ⟨hsub, hsh⟩
  | cons i ids ih =>
    intro acc hids hsub hsh
    simp only [List.foldl_cons]
    obtain ⟨h1, h2⟩ :=
      approveStep_shell_invariant orig hnd acc i (hids i (by simp)) hsub hsh
    exact ih (approveStep acc i) (fun j hj => hids j (by simp [hj])) h1 h2

theorem length_filter_not_add (l : List AgentAction) (p : AgentAction → Bool) :
    (l.filter fun a => !(p a)).length + (l.filter p).length = l.length := by
  induction l with
  | nil => rfl
  | cons a t ih =>
    cases h : p a with
    | true =>
      simp [List.filter_cons, h]
      omega
    | false =>
      simp [List.filter_cons, h]
      omega

/-- C5: bulk approve-all snapshots the queue, executes exactly the ids of
the non-Shell actions in original insertion order (one `executeAction`
each, sequentially), leaves every Shell action queued, and reports the
count of skipped Shell actions when any were skipped. -/
theorem C5_approve_all (st : ProviderState)
    (hnd : (st.pendingActions.map fun a => a.id).Nodup) :
    (handleApproveAll st).executedIds =
      ((st.pendingActions.filter fun a => !decide (a.type = chars "SHELL")).map
        fun a => a.id) ∧
    (∀ a ∈ st.pendingActions, a.type = chars "SHELL" →
      a ∈ (handleApproveAll st).state.pendingActions) ∧
    (handleApproveAll st).skippedReport =
      (if 0 < (st.pendingActions.filter fun a => decide (a.type = chars "SHELL")).length
       then some (st.pendingActions.filter fun a => decide (a.type = chars "SHELL")).length
       else none) := by
  refine ⟨rfl, ?_, ?_⟩
  · have hids : ∀ i ∈ ((st.pendingActions.filter
        fun a => !decide (a.type = chars "SHELL")).map fun a => a.id),
        ∃ b, b ∈ st.pendingActions ∧ b.id = i ∧ ¬ b.type = chars "SHELL" := by
      intro i hi
      obtain ⟨b, hb, hbid⟩ := List.mem_map.mp hi
      obtain ⟨hbmem, hbp⟩ := List.mem_filter.mp hb
      exact ⟨b, hbmem, hbid, by simpa using hbp⟩
    exact (approve_fold_shell_invariant st.pendingActions hnd _ (st, []) hids
      (List.Sublist.refl _) (fun x hx _ => hx)).2
  · have hlen := length_filter_not_add st.pendingActions
      fun a => decide (a.type = chars "SHELL")
    have h2 : st.pendingActions.length -
        (st.pendingActions.filter fun a => !decide (a.type = chars "SHELL")).length =
        (st.pendingActions.filter fun a => decide (a.type = chars "SHELL")).length := by
      omega
    simp only [handleApproveAll, h2]

/-- Witness for C5 at the spec example queue `[Modify, Shell, Create]`. -/
theorem C5_approve_all_witness :
    (([⟨0, chars "MODIFY", some (chars "f.txt"), some (chars "B"), some (chars "b"), none, none⟩,
        ⟨1, chars "SHELL", none, none, none, some (chars "ls"), none⟩,
        ⟨2, chars "CREATE", some (chars "n.txt"), some (chars "hi"), none, none, none⟩] :
        List AgentAction).map fun a => a.id).Nodup ∧
    ((handleApproveAll ⟨[⟨0, chars "MODIFY", some (chars "f.txt"), some (chars "B"), some (chars "b"), none, none⟩,
        ⟨1, chars "SHELL", none, none, none, some (chars "ls"), none⟩,
        ⟨2, chars "CREATE", some (chars "n.txt"), some (chars "hi"), none, none, none⟩],
        ⟨[(chars "f.txt", chars "a\nb\nc\n")], true⟩⟩).executedIds =
      (([⟨0, chars "MODIFY", some (chars "f.txt"), some (chars "B"), some (chars "b"), none, none⟩,
        ⟨1, chars "SHELL", none, none, none, some (chars "ls"), none⟩,
        ⟨2, chars "CREATE", some (chars "n.txt"), some (chars "hi"), none, none, none⟩] :
        List AgentAction).filter fun a => !decide (a.type = chars "SHELL")).map (fun a => a.id) ∧
    (∀ a ∈ ([⟨0, chars "MODIFY", some (chars "f.txt"), some (chars "B"), some (chars "b"), none, none⟩,
        ⟨1, chars "SHELL", none, none, none, some (chars "ls"), none⟩,
        ⟨2, chars "CREATE", some (chars "n.txt"), some (chars "hi"), none, none, none⟩] :
        List AgentAction), a.type = chars "SHELL" →
      a ∈ (handleApproveAll ⟨[⟨0, chars "MODIFY", some (chars "f.txt"), some (chars "B"), some (chars "b"), none, none⟩,
        ⟨1, chars "SHELL", none, none, none, some (chars "ls"), none⟩,
        ⟨2, chars "CREATE", some (chars "n.txt"), some (chars "hi"), none, none, none⟩],
        ⟨[(chars "f.txt", chars "a\nb\nc\n")], true⟩⟩).state.pendingActions) ∧
    (handleApproveAll ⟨[⟨0, chars "MODIFY", some (chars "f.txt"), some (chars "B"), some (chars "b"), none, none⟩,
        ⟨1, chars "SHELL", none, none, none, some (chars "ls"), none⟩,
        ⟨2, chars "CREATE", some (chars "n.txt"), some (chars "hi"), none, none, none⟩],
        ⟨[(chars "f.txt", chars "a\nb\nc\n")], true⟩⟩).skippedReport =
      (if 0 < (([⟨0, chars "MODIFY", some (chars "f.txt"), some (chars "B"), some (chars "b"), none, none⟩,
        ⟨1, chars "SHELL", none, none, none, some (chars "ls"), none⟩,
        ⟨2, chars "CREATE", some (chars "n.txt"), some (chars "hi"), none, none, none⟩] :
        List AgentAction).filter fun a => decide (a.type = chars "SHELL")).length
       then some (([⟨0, chars "MODIFY", some (chars "f.txt"), some (chars "B"), some (chars "b"), none, none⟩,
        ⟨1, chars "SHELL", none, none, none, some (chars "ls"), none⟩,
        ⟨2, chars "CREATE", some (chars "n.txt"), some (chars "hi"), none, none, none⟩] :
        List AgentAction).filter fun a => decide (a.type = chars "SHELL")).length
       else none)) :=
  ⟨by decide,
    C5_approve_all ⟨[⟨0, chars "MODIFY", some (chars "f.txt"), some (chars "B"), some (chars "b"), none, none⟩,
        ⟨1, chars "SHELL", none, none, none, some (chars "ls"), none⟩,
        ⟨2, chars "CREATE", some (chars "n.txt"), some (chars "hi"), none, none, none⟩],
        ⟨[(chars "f.txt", chars "a\nb\nc\n")], true⟩⟩ (by decide)⟩

/-! Helper lemmas: every parsed block carries a nonempty kind token. -/

theorem matchMarkerAt_kind_ne_nil (cs k r : Str) (h : matchMarkerAt cs = some (k, r)) :
    k ≠ [] := by
  simp only [matchMarkerAt] at h
  split at h
  · simp at h
  · split at h
    · simp at h
    · split at h
      · simp at h
      next hke =>
        split at h
        · simp at h
        next =>
          obtain ⟨h1, h2⟩ := Option.some.inj h |> Prod.mk.inj
          subst h1
          simpa [List.isEmpty_iff] using hke

theorem findNextMarker_kind_ne_nil :
    ∀ (cs k r : Str), findNextMarker cs = some (k, r) → k ≠ [] := by
  intro cs
  induction cs with
  | nil =>
    intro k r h
    simp [findNextMarker] at h
  | cons c t ih =>
    intro k r h
    unfold findNextMarker at h
    split at h
    next hm =>
      cases h
      exact matchMarkerAt_kind_ne_nil (c :: t) k r hm
    next =>
      exact ih k r h

theorem parseLoopAux_kind_ne_nil :
    ∀ (fuel : Nat) (cs : Str) (kb : Str × Str), kb ∈ parseLoopAux fuel cs → kb.1 ≠ [] := by
  intro fuel
  induction fuel with
  | zero =>
    intro cs kb h
    simp [parseLoopAux] at h
  | succ n ih =>
    intro cs kb h
    unfold parseLoopAux at h
    split at h
    · simp at h
    next kind rest hm =>
      rcases List.mem_cons.mp h with rfl | h2
      · exact findNextMarker_kind_ne_nil cs kind rest hm
      · exact ih _ kb h2

theorem mkAction_type (id : Nat) (ty body : Str) : (mkAction id ty body).type = ty := by
  unfold mkAction
  split_ifs <;> rfl

/-- C3 (amended): every marker block — recognized kind or not — yields
exactly one action appended to the queue (the kind-nonemptiness guard is
always satisfied), and a batch containing any block, recognized or not,
is not reported as a parse error. -/
theorem C3_amended (cs : Str) (startId : Nat) :
    queuedActions cs startId =
      ((parseBlocks cs).enum.map fun nb => mkAction (startId + nb.1) nb.2.1 nb.2.2) ∧
    (parseBlocks cs ≠ [] → ∀ st, (parseAndConfirm st cs startId).2 = false) := by
  have hfull : queuedActions cs startId =
      ((parseBlocks cs).enum.map fun nb => mkAction (startId + nb.1) nb.2.1 nb.2.2) := by
    unfold queuedActions
    apply List.filter_eq_self.mpr
    intro a ha
    obtain ⟨⟨n, kb⟩, hkb, rfl⟩ := List.mem_map.mp ha
    have hk : kb.1 ≠ [] := by
      have hm := List.mem_enum hkb
      have hkmem : kb ∈ parseBlocks cs := by
        rw [hm.2]
        exact List.getElem_mem ..
      exact parseLoopAux_kind_ne_nil (cs.length + 1) cs kb
        (by simpa [parseBlocks] using hkmem)
    simp [mkAction_type, List.isEmpty_iff, hk]
  refine ⟨hfull, ?_⟩
  intro hne st
  have hq : queuedActions cs startId ≠ [] := by
    rw [hfull]
    simp only [ne_eq, List.map_eq_nil_iff, List.enum_eq_nil]
    exact hne
  simp [parseAndConfirm, List.isEmpty_iff, hq]

/-- Witness for C3 (amended) at a batch holding a single block of the
unrecognized kind `ZAP`. -/
theorem C3_amended_witness :
    queuedActions (chars "\x7b\x7bTOOL_CALL:ZAP\x7d\x7d\nbody") 5 =
      ((parseBlocks (chars "\x7b\x7bTOOL_CALL:ZAP\x7d\x7d\nbody")).enum.map
        fun nb => mkAction (5 + nb.1) nb.2.1 nb.2.2) ∧
    parseBlocks (chars "\x7b\x7bTOOL_CALL:ZAP\x7d\x7d\nbody") ≠ [] ∧
    (parseAndConfirm ⟨[], ⟨[], true⟩⟩ (chars "\x7b\x7bTOOL_CALL:ZAP\x7d\x7d\nbody") 5).2 = false :=
  ⟨(C3_amended (chars "\x7b\x7bTOOL_CALL:ZAP\x7d\x7d\nbody") 5).1,
    by decide,
    (C3_amended (chars "\x7b\x7bTOOL_CALL:ZAP\x7d\x7d\nbody") 5).2 (by decide) ⟨[], ⟨[], true⟩⟩⟩

end OnlyAgent
